import Mathlib

/-!
Verification of the button-panel solver (day 10 of the puzzle repository):
the machine model, the exhaustive toggle search
(`Machine.find_minimal_button_presses`), the joltage linear minimizer
(`Machine.find_minimal_button_presses_for_joltage_requirement`) and the
text-parsing helpers.

The source stores the light pattern, the button masks and the joltage
requirements as 16-bit unsigned integers.  Machine integers are embedded as
`Nat`; wherever the source shifts by an amount that can reach the bit width,
the embedding applies the compiled (release) semantics of the source
language, in which the shift amount of a 16-bit shift is reduced modulo 16.
-/

/-- One puzzle machine, as in the source: the target light pattern (a 16-bit
bit set), the buttons' bit masks in input order, and the per-counter joltage
requirements. -/
structure Machine where
  light_bit_pattern : Nat
  buttons : List Nat
  joltage_requirements : List Nat
deriving DecidableEq

/-- `u16::count_ones` on a 16-bit value: the number of set bits. -/
def count_ones (n : Nat) : Nat :=
  (List.range 16).countP (fun i => n.testBit i)

/-- `Iterator::min_by_key` with a `Nat` key: the element with the least key,
the first one among ties, `none` on an empty iterator. -/
def minByKey {α : Type} (f : α → Nat) : List α → Option α
  | [] => none
  | x :: xs => some (xs.foldl (fun best y => if f y < f best then y else best) x)

/-- The indexed fold inside `Machine::press_button`: walk the buttons with
their indices, XOR-ing in every button whose index bit is set in
`button_pattern`. -/
def pressButtonAux (buttons : List Nat) (button_pattern : Nat) (idx acc : Nat) : Nat :=
  match buttons with
  | [] => acc
  | b :: bs =>
      pressButtonAux bs button_pattern (idx + 1)
        (if 0 < button_pattern &&& (1 <<< (idx % 16)) then acc ^^^ b else acc)

/-- `Machine::press_button`: the light pattern produced by pressing the set
of buttons selected by the bits of `button_pattern`. -/
def Machine.press_button (m : Machine) (button_pattern : Nat) : Nat :=
  pressButtonAux m.buttons button_pattern 0 0

/-- The enumeration bound `1u16 << self.buttons.len()` of
`Machine::find_minimal_button_presses` (release shift semantics: the shift
amount is reduced modulo the 16-bit width). -/
def Machine.max_combinations (m : Machine) : Nat :=
  1 <<< (m.buttons.length % 16)

/-- `Machine::find_minimal_button_presses`: enumerate the button patterns
below `max_combinations`, keep those whose press reaches the light pattern,
and return the popcount of the one with the fewest set bits. -/
def Machine.find_minimal_button_presses (m : Machine) : Option Nat :=
  (minByKey count_ones
      ((List.range m.max_combinations).filter
        (fun p => m.press_button p == m.light_bit_pattern))).map count_ones

/-- The indices of the buttons whose mask has the bit of counter `c` set,
exactly as the constraint loop of the source tests it:
`button_pattern & (1 << counter_idx) != 0` (release shift semantics). -/
def codeIncident (buttons : List Nat) (c : Nat) : List Nat :=
  (List.range buttons.length).filter
    (fun i => buttons.getD i 0 &&& (1 <<< (c % 16)) != 0)

/-- The constraint system asserted by
`Machine::find_minimal_button_presses_for_joltage_requirement`: a press-count
per button, and for every counter the incident presses sum to the
requirement. -/
def CodeFeasible (m : Machine) (x : List Nat) : Prop :=
  x.length = m.buttons.length ∧
  ∀ c < m.joltage_requirements.length,
    ((codeIncident m.buttons c).map (fun i => x.getD i 0)).sum =
      m.joltage_requirements.getD c 0

/-- Boolean form of `CodeFeasible`, used to run the search. -/
def codeFeasibleB (m : Machine) (x : List Nat) : Bool :=
  x.length == m.buttons.length &&
  (List.range m.joltage_requirements.length).all (fun c =>
    ((codeIncident m.buttons c).map (fun i => x.getD i 0)).sum ==
      m.joltage_requirements.getD c 0)

/-- The largest joltage requirement of the machine. -/
def maxReq (m : Machine) : Nat := m.joltage_requirements.foldr max 0

/-- A sufficient per-button search bound: a button incident to some counter
never needs more presses than the largest requirement; a button incident to
no counter never needs a press at all. -/
def varBound (m : Machine) (i : Nat) : Nat :=
  if (List.range m.joltage_requirements.length).any
      (fun c => m.buttons.getD i 0 &&& (1 <<< (c % 16)) != 0)
  then maxReq m else 0

/-- The per-button bounds, one per button. -/
def boundsList (m : Machine) : List Nat :=
  (List.range m.buttons.length).map (varBound m)

/-- All assignments that stay pointwise below the given bounds. -/
def boxTuples : List Nat → List (List Nat)
  | [] => [[]]
  | b :: bs => (List.range (b + 1)).flatMap (fun v => (boxTuples bs).map (fun t => v :: t))

/-- The least element of a list of naturals, `none` on the empty list. -/
def minimumNat : List Nat → Option Nat
  | [] => none
  | x :: xs =>
      some (match minimumNat xs with
        | none => x
        | some m => min x m)

/-- Modelled from the spec: the source delegates the optimisation step to the
external Z3 `Optimize` engine, which is not part of this repository.  Per the
spec's contract the engine returns the provably global minimum of the
objective `Σ xᵢ` over all non-negative integer assignments satisfying the
asserted equality constraints, and reports unsatisfiability otherwise.  It is
realised here as an exhaustive search over a finite box, proved below to
compute exactly that global minimum over all of `ℕ^B`. -/
def z3Optimize (m : Machine) : Option Nat :=
  minimumNat
    (((boxTuples (boundsList m)).filter (codeFeasibleB m)).map (fun x => x.sum))

/-- The observable outcome of
`Machine::find_minimal_button_presses_for_joltage_requirement`: the minimal
total, the infeasible marker (`None` in the source), or a panic. -/
inductive LinearResult where
  | panic : LinearResult
  | infeasible : LinearResult
  | minimum : Nat → LinearResult
deriving DecidableEq

/-- `Machine::find_minimal_button_presses_for_joltage_requirement`: the
source returns `None` from inside the constraint loop as soon as a counter
has no incident button but a non-zero requirement; past that loop it builds
the objective with `reduce(|a, b| a + b).unwrap()`, which panics when there
are no buttons; otherwise it hands the constraint system to the
optimiser. -/
def Machine.find_minimal_button_presses_for_joltage_requirement
    (m : Machine) : LinearResult :=
  if (List.range m.joltage_requirements.length).any
      (fun c => (codeIncident m.buttons c).isEmpty &&
        (m.joltage_requirements.getD c 0 != 0))
  then LinearResult.infeasible
  else if m.buttons.isEmpty then LinearResult.panic
  else
    match z3Optimize m with
    | none => LinearResult.infeasible
    | some k => LinearResult.minimum k

/-! ### Parsing helpers of the source, over explicit character lists -/

/-- `Iterator::collect::<Option<Vec<_>>>`: all values, or `none` as soon as
one element is `none`. -/
def optCollect {α : Type} : List (Option α) → Option (List α)
  | [] => some []
  | none :: _ => none
  | some v :: rest => (optCollect rest).map (fun l => v :: l)

/-- `str::split_whitespace`: maximal runs of non-whitespace characters. -/
def splitWsAux : List Char → List Char → List (List Char)
  | [], cur => if cur = [] then [] else [cur.reverse]
  | c :: rest, cur =>
      if c.isWhitespace then
        if cur = [] then splitWsAux rest []
        else cur.reverse :: splitWsAux rest []
      else splitWsAux rest (c :: cur)

/-- `str::split_whitespace` over the characters of a line. -/
def splitWs (cs : List Char) : List (List Char) := splitWsAux cs []

/-- `str::split(',')`: the comma-separated pieces, empty pieces kept. -/
def splitComma : List Char → List (List Char)
  | [] => [[]]
  | c :: rest =>
      if c = ',' then [] :: splitComma rest
      else
        match splitComma rest with
        | [] => [[c]]
        | g :: gs => (c :: g) :: gs

/-- `str::strip_prefix(c)`. -/
def stripLead (c : Char) : List Char → Option (List Char)
  | [] => none
  | x :: xs => if x = c then some xs else none

/-- `str::strip_suffix(c)`. -/
def stripTail (c : Char) (cs : List Char) : Option (List Char) :=
  match cs.getLast? with
  | some x => if x = c then some cs.dropLast else none
  | none => none

/-- The digit phase of `u16::from_str`: one or more ASCII digits whose
decimal value fits in 16 bits; anything else (including an overflowing
value) is a parse error, never a reduced value. -/
def parseDigits (ds : List Char) : Option Nat :=
  if ds = [] then none
  else if ds.all (fun c => c.isDigit) then
    if ds.foldl (fun acc c => acc * 10 + (c.toNat - 48)) 0 < 65536 then
      some (ds.foldl (fun acc c => acc * 10 + (c.toNat - 48)) 0)
    else none
  else none

/-- `u16::from_str`: an optional leading `'+'`, then one or more ASCII
digits, rejecting values that do not fit in 16 bits. -/
def parse_u16 (cs : List Char) : Option Nat :=
  parseDigits
    (match cs with
      | '+' :: rest => rest
      | other => other)


/-- `parse_light_bit_pattern`: strip the surrounding brackets and fold the
characters with their indices, setting bit `i` for a `'#'` at position `i`
(release shift semantics for indices reaching the 16-bit width). -/
def parse_light_bit_pattern (cs : List Char) : Option Nat :=
  (stripLead '[' cs).bind (fun s1 =>
    (stripTail ']' s1).map (fun clean =>
      (clean.foldl
        (fun (st : Nat × Nat) c =>
          (if c = '#' then st.1 ||| (1 <<< (st.2 % 16)) else st.1, st.2 + 1))
        (0, 0)).1))

/-- `parse_button`: strip the surrounding parentheses, parse the
comma-separated indices, and fold them into a bit mask. -/
def parse_button (cs : List Char) : Option Nat :=
  (stripLead '(' cs).bind (fun s1 =>
    (stripTail ')' s1).bind (fun clean =>
      (optCollect ((splitComma clean).map parse_u16)).map (fun parts =>
        parts.foldl (fun acc p => acc ||| (1 <<< (p % 16))) 0)))

/-- `parse_joltage_requirements`: strip the surrounding braces and parse the
comma-separated targets. -/
def parse_joltage_requirements (cs : List Char) : Option (List Nat) :=
  (stripLead '{' cs).bind (fun s1 =>
    (stripTail '}' s1).bind (fun clean =>
      optCollect ((splitComma clean).map parse_u16)))

/-- The observable outcome of `Machine::from_str`: a machine, a propagated
parse error (the source's `anyhow` messages are collapsed), or a panic. -/
inductive ParseResult where
  | panic : ParseResult
  | err : ParseResult
  | ok : Machine → ParseResult
deriving DecidableEq

/-- `Machine::from_str`: split the line on whitespace, parse the first token
as the light pattern, the middle tokens as buttons and the last token as the
joltage requirements.  `parts[0]` on an empty token list and the slice
`parts[1..parts.len()-1]` on a single-token list index out of bounds, which
is a panic. -/
def Machine.from_str (s : String) : ParseResult :=
  match splitWs s.data with
  | [] => ParseResult.panic
  | p0 :: rest =>
      match parse_light_bit_pattern p0 with
      | none => ParseResult.err
      | some light =>
          match rest with
          | [] => ParseResult.panic
          | r :: rs =>
              match optCollect (((r :: rs).dropLast).map parse_button) with
              | none => ParseResult.err
              | some buttons =>
                  match parse_joltage_requirements
                      ((r :: rs).getLast (List.cons_ne_nil r rs)) with
                  | none => ParseResult.err
                  | some jolt => ParseResult.ok ⟨light, buttons, jolt⟩

/-! ### The specification-side notions the claims quantify over -/

/-- The XOR-fold of the masks of the buttons selected by the index list `s`
(the spec's "XOR-folding their toggle masks"). -/
def xorFold (buttons : List Nat) (s : List Nat) : Nat :=
  s.foldr (fun i acc => buttons.getD i 0 ^^^ acc) 0

/-- A subset of the `B` buttons: a duplicate-free list of button indices
below `B`. -/
def SubsetOf (B : Nat) (s : List Nat) : Prop :=
  s.Nodup ∧ ∀ i ∈ s, i < B

/-- The indices of the buttons whose bit set contains counter `c`, in the
spec's sense (true bit membership, no width reduction). -/
def specIncident (buttons : List Nat) (c : Nat) : List Nat :=
  (List.range buttons.length).filter (fun i => (buttons.getD i 0).testBit c)

/-- The spec's linear system: non-negative press counts, one per button,
whose incident sums meet every counter's requirement exactly. -/
def SpecFeasible (m : Machine) (x : List Nat) : Prop :=
  x.length = m.buttons.length ∧
  ∀ c < m.joltage_requirements.length,
    ((specIncident m.buttons c).map (fun i => x.getD i 0)).sum =
      m.joltage_requirements.getD c 0

/-- The relational contract of the optimisation step: `none` exactly when
the constraint system is unsatisfiable, and otherwise the global minimum of
the total press count. -/
def OptimizeOutcome (m : Machine) : Option Nat → Prop
  | none => ¬ ∃ x, CodeFeasible m x
  | some k => (∃ x, CodeFeasible m x ∧ x.sum = k) ∧ ∀ x, CodeFeasible m x → k ≤ x.sum

/-- The selection pattern encoding a subset of button indices. -/
def encodeSubset (s : List Nat) : Nat :=
  s.foldr (fun i acc => 2 ^ i ||| acc) 0

/-! ### Concrete machines used by the scenarios, counterexamples and
witnesses -/

/-- Scenario 1 of the spec: panel `[.##.]`, buttons
`(3) (1,3) (2) (2,3) (0,2) (0,1)`, requirements `{3,5,4,7}`. -/
def machineScenario1 : Machine :=
  ⟨6, [8, 10, 4, 12, 5, 3], [3, 5, 4, 7]⟩

/-- A machine with exactly 16 buttons; its light pattern is reached by
pressing the first button alone. -/
def machineSixteen : Machine :=
  ⟨1, List.replicate 16 1, []⟩

/-- A machine with 17 counters whose 17th requirement aliases counter 0
through the 16-bit shift of the constraint loop. -/
def machineWideLinear : Machine :=
  ⟨0, [1], 3 :: List.replicate 16 0⟩

/-- A machine with 17 counters whose 17th counter has requirement 5 and no
incident button in the spec's sense. -/
def machineWideCounter : Machine :=
  ⟨0, [1], 5 :: (List.replicate 15 0 ++ [5])⟩

/-- A two-button, two-counter machine with independent counters. -/
def machineLinearW : Machine :=
  ⟨0, [1, 2], [2, 3]⟩

/-- The set-bit indices of a selection pattern, below the button count. -/
def bitIdx (p B : Nat) : List Nat :=
  (List.range B).filter (fun i => p.testBit i)

/-- Zero out the coordinates whose search bound is zero. -/
def squash : List Nat → List Nat → List Nat
  | [], _ => []
  | _, [] => []
  | v :: x, b :: bs => (if b = 0 then 0 else v) :: squash x bs

/-- A machine whose counter 0 has a non-zero requirement but no incident
button (the single button {1} misses bit 0). -/
def machineEmptyCounter : Machine :=
  ⟨0, [2], [7, 1]⟩

/-- The scenario-1 machine with different joltage requirements. -/
def machineScenario1Alt : Machine :=
  ⟨6, [8, 10, 4, 12, 5, 3], [1, 1, 1, 1]⟩

/-- The `machineLinearW` machine with a different light pattern. -/
def machineLitLinearW : Machine :=
  ⟨7, [1, 2], [2, 3]⟩

/-- A machine with no buttons and a non-zero requirement. -/
def machineNoButtons : Machine :=
  ⟨0, [], [1]⟩

/-- Sanity anchor for the parsing embedding: the spec's example line parses
to the scenario-1 machine. -/
theorem from_str_scenario1 :
    Machine.from_str "[.##.] (3) (1,3) (2) (2,3) (0,2) (0,1) {3,5,4,7}" =
      ParseResult.ok machineScenario1 := by decide

/-! ### Helper lemmas: selection minima -/

theorem minByKey_eq_none_iff {α : Type} (f : α → Nat) (l : List α) :
    minByKey f l = none ↔ l = [] := by
  cases l <;> simp [minByKey]

theorem minByKey_foldl_spec {α : Type} (f : α → Nat) (xs : List α) (x : α) :
    (xs.foldl (fun best y => if f y < f best then y else best) x) ∈ x :: xs ∧
    f (xs.foldl (fun best y => if f y < f best then y else best) x) ≤ f x ∧
    ∀ b ∈ xs, f (xs.foldl (fun best y => if f y < f best then y else best) x) ≤ f b := by
  induction xs generalizing x with
  | nil => simp
  | cons y ys ih =>
      simp only [List.foldl_cons]
      obtain ⟨hmem, hle, hall⟩ := ih (if f y < f x then y else x)
      have hgmem : (if f y < f x then y else x) ∈ x :: y :: ys := by
        by_cases h : f y < f x <;> simp [h]
      have hgx : f (if f y < f x then y else x) ≤ f x := by
        by_cases h : f y < f x <;> simp [h, Nat.le_of_lt]
      have hgy : f (if f y < f x then y else x) ≤ f y := by
        by_cases h : f y < f x <;> simp [h, Nat.le_of_not_lt]
      refine ⟨?_, le_trans hle hgx, ?_⟩
      · rcases List.mem_cons.mp hmem with h | h
        · rw [h]; exact hgmem
        · exact List.mem_cons_of_mem _ (List.mem_cons_of_mem _ h)
      · intro b hb
        rcases List.mem_cons.mp hb with rfl | hb
        · exact le_trans hle hgy
        · exact hall b hb

theorem minByKey_spec {α : Type} {f : α → Nat} {l : List α} {a : α}
    (h : minByKey f l = some a) : a ∈ l ∧ ∀ b ∈ l, f a ≤ f b := by
  match l with
  | [] => simp [minByKey] at h
  | x :: xs =>
      simp only [minByKey, Option.some.injEq] at h
      subst h
      obtain ⟨hmem, hx, hall⟩ := minByKey_foldl_spec f xs x
      refine ⟨hmem, fun b hb => ?_⟩
      rcases List.mem_cons.mp hb with rfl | hb
      · exact hx
      · exact hall b hb

theorem minimumNat_eq_none_iff (l : List Nat) : minimumNat l = none ↔ l = [] := by
  cases l <;> simp [minimumNat]

theorem minimumNat_spec {l : List Nat} {m : Nat} (h : minimumNat l = some m) :
    m ∈ l ∧ ∀ y ∈ l, m ≤ y := by
  induction l generalizing m with
  | nil => simp [minimumNat] at h
  | cons x xs ih =>
      simp only [minimumNat] at h
      cases hx : minimumNat xs with
      | none =>
          rw [hx] at h
          simp only [Option.some.injEq] at h
          subst h
          have : xs = [] := (minimumNat_eq_none_iff xs).mp hx
          subst this
          exact ⟨by simp, by simp⟩
      | some m' =>
          rw [hx] at h
          simp only [Option.some.injEq] at h
          subst h
          obtain ⟨hmem, hall⟩ := ih hx
          constructor
          · rcases le_total x m' with hle | hle
            · simp [min_eq_left hle]
            · exact List.mem_cons_of_mem _ (by rwa [min_eq_right hle])
          · intro y hy
            rcases List.mem_cons.mp hy with rfl | hy
            · exact min_le_left _ _
            · exact le_trans (min_le_right _ _) (hall y hy)

/-! ### Helper lemmas: bits -/

theorem and_pow_pos_iff (n i : Nat) :
    (0 < n &&& (1 <<< i)) ↔ n.testBit i = true := by
  rw [Nat.shiftLeft_eq, one_mul, Nat.and_two_pow]
  cases h : n.testBit i
  · simp
  · simp [Nat.two_pow_pos i]

theorem and_pow_bne_iff (n i : Nat) :
    ((n &&& (1 <<< i)) != 0) = true ↔ n.testBit i = true := by
  rw [bne_iff_ne, ← and_pow_pos_iff n i, Nat.pos_iff_ne_zero]

theorem testBit_encodeSubset (s : List Nat) (j : Nat) :
    (encodeSubset s).testBit j = true ↔ j ∈ s := by
  induction s with
  | nil => simp [encodeSubset]
  | cons i t ih =>
      simp only [encodeSubset, List.foldr_cons] at ih ⊢
      rw [Nat.testBit_or]
      by_cases hij : i = j
      · subst hij
        simp [Nat.testBit_two_pow_self]
      · simp only [Nat.testBit_two_pow_of_ne hij, Bool.false_or, ih, List.mem_cons]
        constructor
        · exact Or.inr
        · rintro (rfl | h)
          · exact absurd rfl hij
          · exact h

theorem encodeSubset_lt {s : List Nat} {B : Nat} (h : ∀ i ∈ s, i < B) :
    encodeSubset s < 2 ^ B := by
  induction s with
  | nil => exact Nat.pos_pow_of_pos B (by norm_num)
  | cons i t ih =>
      simp only [encodeSubset, List.foldr_cons]
      exact Nat.or_lt_two_pow
        (Nat.pow_lt_pow_right (by norm_num) (h i (by simp)))
        (ih fun j hj => h j (List.mem_cons_of_mem _ hj))

theorem testBit_eq_false_of_lt {p B i : Nat} (hp : p < 2 ^ B) (hi : B ≤ i) :
    p.testBit i = false :=
  Nat.testBit_lt_two_pow
    (lt_of_lt_of_le hp (Nat.pow_le_pow_right (by norm_num) hi))

/-! ### Helper lemmas: ranges and counting -/

theorem countP_range_eq_of_ge {p : Nat → Bool} {B n : Nat} (hBn : B ≤ n)
    (h : ∀ i, B ≤ i → p i = false) :
    (List.range n).countP p = (List.range B).countP p := by
  have hsplit : List.range n = List.range B ++ List.range' B (n - B) := by
    rw [List.range_eq_range', List.range_eq_range']
    have happ := List.range'_append 0 B (n - B) 1
    simp only [Nat.zero_add, Nat.one_mul] at happ
    have hn : n - B + B = n := Nat.sub_add_cancel hBn
    nth_rewrite 1 [← hn]
    rw [← happ]
  rw [hsplit, List.countP_append]
  have : (List.range' B (n - B)).countP p = 0 := by
    rw [List.countP_eq_zero]
    intro i hi
    have := (List.mem_range'_1.mp hi).1
    simp [h i this]
  omega

theorem count_ones_eq_length_bitIdx {p B : Nat} (hp : p < 2 ^ B) (hB : B ≤ 16) :
    count_ones p = (bitIdx p B).length := by
  rw [count_ones, bitIdx, ← List.countP_eq_length_filter]
  exact countP_range_eq_of_ge hB fun i hi => testBit_eq_false_of_lt hp hi

/-! ### The toggle search: correspondence between selection patterns and
button subsets -/

theorem xorFold_perm (buttons : List Nat) {s t : List Nat} (h : s.Perm t) :
    xorFold buttons s = xorFold buttons t := by
  induction h with
  | nil => rfl
  | cons i h ih =>
      simp only [xorFold, List.foldr_cons] at ih ⊢
      rw [ih]
  | swap i j l =>
      simp only [xorFold, List.foldr_cons]
      rw [← Nat.xor_assoc, ← Nat.xor_assoc,
        Nat.xor_comm (buttons.getD j 0) (buttons.getD i 0)]
  | trans h1 h2 ih1 ih2 => exact ih1.trans ih2

theorem xorFold_cons (buttons : List Nat) (i : Nat) (t : List Nat) :
    xorFold buttons (i :: t) = buttons.getD i 0 ^^^ xorFold buttons t := rfl

theorem pressButtonAux_eq_xorFold (full : List Nat) (bs : List Nat) :
    ∀ (p i acc : Nat), full.drop i = bs → i + bs.length ≤ 16 →
      pressButtonAux bs p i acc =
        acc ^^^ xorFold full ((List.range' i bs.length).filter (fun j => p.testBit j)) := by
  induction bs with
  | nil =>
      intro p i acc _ _
      simp [pressButtonAux, xorFold]
  | cons b bs ih =>
      intro p i acc hdrop hle
      simp only [List.length_cons] at hle
      have hmod : i % 16 = i := Nat.mod_eq_of_lt (by omega)
      have hget : full.getD i 0 = b := by
        have h0 : (full.drop i)[0]? = some b := by rw [hdrop]; simp
        rw [List.getElem?_drop, Nat.add_zero] at h0
        simp [List.getD_eq_getElem?_getD, h0]
      have hdrop' : full.drop (i + 1) = bs := by
        rw [← List.drop_drop, hdrop]
        rfl
      simp only [pressButtonAux, hmod, List.length_cons, List.range'_succ]
      by_cases hbit : p.testBit i
      · rw [if_pos ((and_pow_pos_iff p i).mpr hbit),
          ih p (i + 1) (acc ^^^ b) hdrop' (by omega),
          List.filter_cons_of_pos (by simpa using hbit)]
        rw [xorFold_cons, hget, Nat.xor_assoc]
      · rw [if_neg (fun hc => hbit ((and_pow_pos_iff p i).mp hc)),
          ih p (i + 1) acc hdrop' (by omega),
          List.filter_cons_of_neg (by simpa using hbit)]

theorem press_button_eq_xorFold (m : Machine) (p : Nat)
    (hB : m.buttons.length ≤ 16) :
    m.press_button p = xorFold m.buttons (bitIdx p m.buttons.length) := by
  have h := pressButtonAux_eq_xorFold m.buttons m.buttons p 0 0 rfl (by simpa using hB)
  rw [Machine.press_button, h, Nat.zero_xor, bitIdx, List.range_eq_range']

theorem bitIdx_nodup (p B : Nat) : (bitIdx p B).Nodup :=
  (List.nodup_range B).filter _

theorem mem_bitIdx {p B j : Nat} : j ∈ bitIdx p B ↔ j < B ∧ p.testBit j = true := by
  simp [bitIdx, List.mem_filter, List.mem_range]

theorem bitIdx_encode_perm {s : List Nat} {B : Nat} (hnd : s.Nodup)
    (hlt : ∀ i ∈ s, i < B) : (bitIdx (encodeSubset s) B).Perm s := by
  rw [List.perm_ext_iff_of_nodup (bitIdx_nodup _ _) hnd]
  intro a
  rw [mem_bitIdx, testBit_encodeSubset]
  exact ⟨fun h => h.2, fun h => ⟨hlt a h, h⟩⟩

theorem count_ones_encode {s : List Nat} {B : Nat} (hB : B ≤ 16) (hnd : s.Nodup)
    (hlt : ∀ i ∈ s, i < B) : count_ones (encodeSubset s) = s.length := by
  rw [count_ones_eq_length_bitIdx (encodeSubset_lt hlt) hB]
  exact (bitIdx_encode_perm hnd hlt).length_eq

theorem max_combinations_eq {m : Machine} (hB : m.buttons.length ≤ 15) :
    m.max_combinations = 2 ^ m.buttons.length := by
  rw [Machine.max_combinations, Nat.mod_eq_of_lt (by omega), Nat.shiftLeft_eq, one_mul]

theorem mem_toggle_filter {m : Machine} {p : Nat} :
    p ∈ (List.range m.max_combinations).filter
        (fun q => m.press_button q == m.light_bit_pattern) ↔
      p < m.max_combinations ∧ m.press_button p = m.light_bit_pattern := by
  simp [List.mem_filter, List.mem_range]

theorem find_eq_some_spec {m : Machine} {k : Nat} (hB : m.buttons.length ≤ 15)
    (h : m.find_minimal_button_presses = some k) :
    (∃ s, SubsetOf m.buttons.length s ∧ s.length = k ∧
        xorFold m.buttons s = m.light_bit_pattern) ∧
    ∀ s, SubsetOf m.buttons.length s → xorFold m.buttons s = m.light_bit_pattern →
      k ≤ s.length := by
  rw [Machine.find_minimal_button_presses, Option.map_eq_some'] at h
  obtain ⟨a, ha, hak⟩ := h
  obtain ⟨hamem, hamin⟩ := minByKey_spec ha
  obtain ⟨haB, halight⟩ := mem_toggle_filter.mp hamem
  rw [max_combinations_eq hB] at haB
  constructor
  · refine ⟨bitIdx a m.buttons.length, ⟨bitIdx_nodup _ _, ?_⟩, ?_, ?_⟩
    · intro i hi
      exact (mem_bitIdx.mp hi).1
    · rw [← count_ones_eq_length_bitIdx haB (by omega), hak]
    · rw [← press_button_eq_xorFold m a (by omega)]
      exact halight
  · intro s ⟨hnd, hlt⟩ hfold
    have hq : encodeSubset s < 2 ^ m.buttons.length := encodeSubset_lt hlt
    have hqmem : encodeSubset s ∈ (List.range m.max_combinations).filter
        (fun q => m.press_button q == m.light_bit_pattern) := by
      rw [mem_toggle_filter, max_combinations_eq hB]
      refine ⟨hq, ?_⟩
      rw [press_button_eq_xorFold m _ (by omega),
        xorFold_perm m.buttons (bitIdx_encode_perm hnd hlt)]
      exact hfold
    have := hamin _ hqmem
    rw [count_ones_encode (by omega) hnd hlt] at this
    rw [← hak]
    exact this

theorem find_eq_none_iff {m : Machine} (hB : m.buttons.length ≤ 15) :
    m.find_minimal_button_presses = none ↔
      ¬ ∃ s, SubsetOf m.buttons.length s ∧ xorFold m.buttons s = m.light_bit_pattern := by
  rw [Machine.find_minimal_button_presses, Option.map_eq_none', minByKey_eq_none_iff]
  constructor
  · intro hnil ⟨s, ⟨hnd, hlt⟩, hfold⟩
    have hqmem : encodeSubset s ∈ (List.range m.max_combinations).filter
        (fun q => m.press_button q == m.light_bit_pattern) := by
      rw [mem_toggle_filter, max_combinations_eq hB]
      refine ⟨encodeSubset_lt hlt, ?_⟩
      rw [press_button_eq_xorFold m _ (by omega),
        xorFold_perm m.buttons (bitIdx_encode_perm hnd hlt)]
      exact hfold
    rw [hnil] at hqmem
    exact absurd hqmem (List.not_mem_nil _)
  · intro hno
    rw [List.eq_nil_iff_forall_not_mem]
    intro p hp
    obtain ⟨hpB, hplight⟩ := mem_toggle_filter.mp hp
    rw [max_combinations_eq hB] at hpB
    refine hno ⟨bitIdx p m.buttons.length, ⟨bitIdx_nodup _ _, ?_⟩, ?_⟩
    · intro i hi
      exact (mem_bitIdx.mp hi).1
    · rw [← press_button_eq_xorFold m p (by omega)]
      exact hplight

/-! ### The linear minimizer: the finite box realises the global minimum -/

theorem mem_boxTuples {bs x : List Nat} :
    x ∈ boxTuples bs ↔ x.length = bs.length ∧ ∀ i, x.getD i 0 ≤ bs.getD i 0 := by
  induction bs generalizing x with
  | nil =>
      simp only [boxTuples, List.mem_singleton, List.length_nil]
      constructor
      · rintro rfl
        simp
      · intro ⟨hlen, _⟩
        exact List.eq_nil_of_length_eq_zero hlen
  | cons b bs ih =>
      simp only [boxTuples, List.mem_flatMap, List.mem_map, List.mem_range]
      constructor
      · rintro ⟨v, hv, t, ht, rfl⟩
        obtain ⟨hlen, hall⟩ := ih.mp ht
        refine ⟨by simp [hlen], fun i => ?_⟩
        cases i with
        | zero => simpa using Nat.lt_succ_iff.mp hv
        | succ j => simpa using hall j
      · rintro ⟨hlen, hall⟩
        cases x with
        | nil => simp at hlen
        | cons v t =>
            simp only [List.length_cons, Nat.add_right_cancel_iff] at hlen
            refine ⟨v, Nat.lt_succ_of_le (by simpa using hall 0), t,
              ih.mpr ⟨hlen, fun i => by simpa using hall (i + 1)⟩, rfl⟩

theorem boundsList_getD {m : Machine} {i : Nat} (hi : i < m.buttons.length) :
    (boundsList m).getD i 0 = varBound m i := by
  rw [boundsList, List.getD_eq_getElem?_getD, List.getElem?_map, List.getElem?_range hi]
  rfl

theorem boundsList_getD_zero {m : Machine} {i : Nat} (hi : m.buttons.length ≤ i) :
    (boundsList m).getD i 0 = 0 := by
  rw [List.getD_eq_getElem?_getD, List.getElem?_eq_none (by simpa [boundsList])]
  rfl

theorem getD_le_foldr_max (l : List Nat) (c : Nat) : l.getD c 0 ≤ l.foldr max 0 := by
  induction l generalizing c with
  | nil => simp
  | cons a l ih =>
      cases c with
      | zero => simp [List.getD_cons_zero, le_max_left]
      | succ j =>
          rw [List.getD_cons_succ, List.foldr_cons]
          exact le_trans (ih j) (le_max_right a _)

theorem mem_codeIncident {buttons : List Nat} {c i : Nat} :
    i ∈ codeIncident buttons c ↔
      i < buttons.length ∧ buttons.getD i 0 &&& (1 <<< (c % 16)) ≠ 0 := by
  simp [codeIncident, List.mem_filter, List.mem_range, bne_iff_ne]

theorem feasible_coord_le {m : Machine} {x : List Nat} (hx : CodeFeasible m x)
    {c i : Nat} (hc : c < m.joltage_requirements.length)
    (hi : i ∈ codeIncident m.buttons c) :
    x.getD i 0 ≤ maxReq m := by
  have hsum := hx.2 c hc
  have hmem : x.getD i 0 ∈ (codeIncident m.buttons c).map (fun j => x.getD j 0) :=
    List.mem_map_of_mem _ hi
  calc x.getD i 0
      ≤ ((codeIncident m.buttons c).map (fun j => x.getD j 0)).sum :=
        List.single_le_sum (fun y _ => Nat.zero_le y) _ hmem
    _ = m.joltage_requirements.getD c 0 := hsum
    _ ≤ maxReq m := getD_le_foldr_max _ _

theorem squash_getD (x bs : List Nat) (i : Nat) :
    (squash x bs).getD i 0 = if bs.getD i 0 = 0 then 0 else x.getD i 0 := by
  induction x generalizing bs i with
  | nil => simp [squash]
  | cons v x ih =>
      cases bs with
      | nil => simp [squash]
      | cons b bs =>
          cases i with
          | zero => simp [squash]
          | succ j => simpa [squash] using ih bs j

theorem squash_length (x bs : List Nat) (h : x.length = bs.length) :
    (squash x bs).length = x.length := by
  induction x generalizing bs with
  | nil => simp [squash]
  | cons v x ih =>
      cases bs with
      | nil => simp at h
      | cons b bs => simp [squash, ih bs (by simpa using h)]

theorem squash_sum_le (x bs : List Nat) : (squash x bs).sum ≤ x.sum := by
  induction x generalizing bs with
  | nil => simp [squash]
  | cons v x ih =>
      cases bs with
      | nil => simp [squash]
      | cons b bs =>
          simp only [squash, List.sum_cons]
          have := ih bs
          by_cases hb : b = 0 <;> simp [hb] <;> omega

theorem varBound_of_incident {m : Machine} {c i : Nat}
    (hc : c < m.joltage_requirements.length)
    (hi : i ∈ codeIncident m.buttons c) :
    varBound m i = maxReq m := by
  rw [varBound, if_pos]
  rw [List.any_eq_true]
  refine ⟨c, List.mem_range.mpr hc, ?_⟩
  rw [bne_iff_ne]
  exact (mem_codeIncident.mp hi).2

theorem squash_getD_of_incident {m : Machine} {x : List Nat} (hx : CodeFeasible m x)
    {c i : Nat} (hc : c < m.joltage_requirements.length)
    (hi : i ∈ codeIncident m.buttons c) :
    (squash x (boundsList m)).getD i 0 = x.getD i 0 := by
  have hiB : i < m.buttons.length := (mem_codeIncident.mp hi).1
  rw [squash_getD, boundsList_getD hiB, varBound_of_incident hc hi]
  by_cases h0 : maxReq m = 0
  · rw [if_pos h0]
    have := feasible_coord_le hx hc hi
    omega
  · rw [if_neg h0]

theorem squash_feasible {m : Machine} {x : List Nat} (hx : CodeFeasible m x) :
    CodeFeasible m (squash x (boundsList m)) := by
  refine ⟨?_, fun c hc => ?_⟩
  · rw [squash_length x _ (by simp [boundsList, hx.1]), hx.1]
  · rw [List.map_congr_left fun i hi => squash_getD_of_incident hx hc hi]
    exact hx.2 c hc

theorem squash_mem_box {m : Machine} {x : List Nat} (hx : CodeFeasible m x) :
    squash x (boundsList m) ∈ boxTuples (boundsList m) := by
  rw [mem_boxTuples]
  refine ⟨by rw [squash_length x _ (by simp [boundsList, hx.1]), hx.1]; simp [boundsList], ?_⟩
  intro i
  rw [squash_getD]
  by_cases h0 : (boundsList m).getD i 0 = 0
  · rw [if_pos h0, h0]
  · rw [if_neg h0]
    by_cases hiB : i < m.buttons.length
    · rw [boundsList_getD hiB] at h0 ⊢
      rw [varBound] at h0 ⊢
      by_cases hany : (List.range m.joltage_requirements.length).any
          (fun c => m.buttons.getD i 0 &&& (1 <<< (c % 16)) != 0) = true
      · rw [if_pos hany] at h0 ⊢
        obtain ⟨c, hcmem, hcond⟩ := List.any_eq_true.mp hany
        have hi : i ∈ codeIncident m.buttons c := by
          rw [mem_codeIncident, ← bne_iff_ne]
          exact ⟨hiB, hcond⟩
        exact feasible_coord_le hx (List.mem_range.mp hcmem) hi
      · rw [if_neg hany] at h0
        exact absurd rfl h0
    · exact absurd (boundsList_getD_zero (by omega)) h0

theorem codeFeasibleB_iff {m : Machine} {x : List Nat} :
    codeFeasibleB m x = true ↔ CodeFeasible m x := by
  rw [codeFeasibleB, CodeFeasible, Bool.and_eq_true, beq_iff_eq, List.all_eq_true]
  simp [List.mem_range]

theorem z3Optimize_none_iff (m : Machine) :
    z3Optimize m = none ↔ ¬ ∃ x, CodeFeasible m x := by
  rw [z3Optimize, minimumNat_eq_none_iff, List.map_eq_nil_iff, List.filter_eq_nil_iff]
  constructor
  · rintro hnone ⟨y, hy⟩
    exact hnone (squash y (boundsList m)) (squash_mem_box hy)
      (codeFeasibleB_iff.mpr (squash_feasible hy))
  · intro hno x _ hfeas
    exact hno ⟨x, codeFeasibleB_iff.mp hfeas⟩

theorem z3Optimize_some_spec {m : Machine} {k : Nat} (h : z3Optimize m = some k) :
    (∃ x, CodeFeasible m x ∧ x.sum = k) ∧ ∀ x, CodeFeasible m x → k ≤ x.sum := by
  rw [z3Optimize] at h
  obtain ⟨hmem, hall⟩ := minimumNat_spec h
  constructor
  · obtain ⟨y, hy, hsum⟩ := List.mem_map.mp hmem
    obtain ⟨hybox, hyfeas⟩ := List.mem_filter.mp hy
    exact ⟨y, codeFeasibleB_iff.mp hyfeas, hsum⟩
  · intro x hx
    have hmem2 : (squash x (boundsList m)).sum ∈
        ((boxTuples (boundsList m)).filter (codeFeasibleB m)).map (fun y => y.sum) :=
      List.mem_map_of_mem _ (List.mem_filter.mpr
        ⟨squash_mem_box hx, codeFeasibleB_iff.mpr (squash_feasible hx)⟩)
    exact le_trans (hall _ hmem2) (squash_sum_le x _)

theorem guard_infeasible {m : Machine}
    (hg : (List.range m.joltage_requirements.length).any
      (fun c => (codeIncident m.buttons c).isEmpty &&
        (m.joltage_requirements.getD c 0 != 0)) = true) :
    ¬ ∃ x, CodeFeasible m x := by
  rintro ⟨x, hx⟩
  obtain ⟨c, hc, hcond⟩ := List.any_eq_true.mp hg
  rw [Bool.and_eq_true, List.isEmpty_iff, bne_iff_ne] at hcond
  have heq := hx.2 c (List.mem_range.mp hc)
  rw [hcond.1] at heq
  simp only [List.map_nil, List.sum_nil] at heq
  exact hcond.2 heq.symm

theorem linMin_infeasible_iff (m : Machine) :
    m.find_minimal_button_presses_for_joltage_requirement =
      LinearResult.infeasible ↔ ¬ ∃ x, CodeFeasible m x := by
  rw [Machine.find_minimal_button_presses_for_joltage_requirement]
  split
  next hg =>
      simp only [true_iff]
      exact guard_infeasible hg
  next hg =>
      by_cases hbe : m.buttons.isEmpty = true
      · rw [if_pos hbe]
        have hbe' : m.buttons = [] := List.isEmpty_iff.mp hbe
        refine iff_of_false (by simp) (not_not_intro ⟨[], by simp [hbe'], ?_⟩)
        intro c hc
        have hreq : m.joltage_requirements.getD c 0 = 0 := by
          by_contra hne
          refine hg (List.any_eq_true.mpr ⟨c, List.mem_range.mpr hc, ?_⟩)
          rw [Bool.and_eq_true, List.isEmpty_iff, bne_iff_ne]
          exact ⟨by simp [codeIncident, hbe'], hne⟩
        rw [hreq]
        simp [codeIncident, hbe']
      · rw [if_neg hbe]
        cases hz : z3Optimize m with
        | none =>
            exact iff_of_true rfl ((z3Optimize_none_iff m).mp hz)
        | some k =>
            obtain ⟨⟨x, hx, _⟩, _⟩ := z3Optimize_some_spec hz
            exact iff_of_false (by simp) (not_not_intro ⟨x, hx⟩)

theorem linMin_minimum_spec {m : Machine} {k : Nat}
    (h : m.find_minimal_button_presses_for_joltage_requirement =
      LinearResult.minimum k) :
    (∃ x, CodeFeasible m x ∧ x.sum = k) ∧ ∀ x, CodeFeasible m x → k ≤ x.sum := by
  rw [Machine.find_minimal_button_presses_for_joltage_requirement] at h
  split at h
  next => exact absurd h (by simp)
  next =>
      split at h
      · exact absurd h (by simp)
      · cases hz : z3Optimize m with
        | none =>
            rw [hz] at h
            exact absurd h (by simp)
        | some k2 =>
            rw [hz] at h
            cases h
            exact z3Optimize_some_spec hz

theorem linMin_ne_panic {m : Machine} (hb : m.buttons ≠ []) :
    m.find_minimal_button_presses_for_joltage_requirement ≠
      LinearResult.panic := by
  rw [Machine.find_minimal_button_presses_for_joltage_requirement]
  split
  · simp
  · rw [if_neg (fun hbe => hb (List.isEmpty_iff.mp hbe))]
    cases z3Optimize m <;> simp

theorem specIncident_eq_codeIncident {buttons : List Nat} {c : Nat} (hc : c < 16) :
    specIncident buttons c = codeIncident buttons c := by
  rw [specIncident, codeIncident]
  apply List.filter_congr
  intro i _
  rw [Nat.mod_eq_of_lt hc, Bool.eq_iff_iff, and_pow_bne_iff]

theorem specFeasible_iff_codeFeasible {m : Machine} {x : List Nat}
    (hC : m.joltage_requirements.length ≤ 16) :
    SpecFeasible m x ↔ CodeFeasible m x := by
  rw [SpecFeasible, CodeFeasible]
  constructor <;> intro ⟨hlen, hall⟩ <;> refine ⟨hlen, fun c hc => ?_⟩
  · rw [← specIncident_eq_codeIncident (by omega)]
    exact hall c hc
  · rw [specIncident_eq_codeIncident (by omega)]
    exact hall c hc

/-! ### Parsing lemmas -/

theorem optCollect_mem {α : Type} :
    ∀ {l : List (Option α)} {out : List α}, optCollect l = some out →
      ∀ v ∈ out, some v ∈ l := by
  intro l
  induction l with
  | nil =>
      intro out h v hv
      simp only [optCollect, Option.some.injEq] at h
      subst h
      simp at hv
  | cons o rest ih =>
      intro out h v hv
      match o with
      | none => simp [optCollect] at h
      | some w =>
          simp only [optCollect, Option.map_eq_some'] at h
          obtain ⟨t, ht, rfl⟩ := h
          rcases List.mem_cons.mp hv with rfl | hv
          · exact List.mem_cons_self _ _
          · exact List.mem_cons_of_mem _ (ih ht v hv)

theorem parseDigits_lt {ds : List Char} {v : Nat} (h : parseDigits ds = some v) :
    v < 65536 := by
  rw [parseDigits] at h
  split at h
  · exact absurd h (by simp)
  · split at h
    · split at h
      · rename_i hv
        cases h
        exact hv
      · exact absurd h (by simp)
    · exact absurd h (by simp)

theorem parse_u16_lt {cs : List Char} {v : Nat} (h : parse_u16 cs = some v) :
    v < 65536 :=
  parseDigits_lt h

theorem parse_joltage_requirements_lt {cs : List Char} {l : List Nat}
    (h : parse_joltage_requirements cs = some l) : ∀ v ∈ l, v < 65536 := by
  rw [parse_joltage_requirements] at h
  obtain ⟨s1, _, h⟩ := Option.bind_eq_some.mp h
  obtain ⟨clean, _, h⟩ := Option.bind_eq_some.mp h
  intro v hv
  obtain ⟨ds, _, hds⟩ := List.mem_map.mp (optCollect_mem h v hv)
  exact parse_u16_lt hds

/-! ### The claims -/

/-- C1 counterexample: the claim fails as stated.  `machineSixteen` has 16
buttons and its light pattern is reachable (pressing button 0 alone), yet
the Exact Toggle Search returns `none`: the bound `1u16 << 16` reduces the
enumeration to the empty selection only. -/
theorem C1_counterexample :
    SubsetOf machineSixteen.buttons.length [0] ∧
    xorFold machineSixteen.buttons [0] = machineSixteen.light_bit_pattern ∧
    machineSixteen.find_minimal_button_presses = none := by
  refine ⟨⟨by decide, by decide⟩, by decide, by decide⟩

/-- C1 (amended to machines with at most 15 buttons): whenever the light
pattern is reachable by some subset of the buttons, the Exact Toggle Search
returns `some k` where a duplicate-free selection of exactly `k` buttons
XOR-folds to the light pattern and no selection of fewer buttons does. -/
theorem C1_find_minimal_presses_is_minimum (m : Machine)
    (hB : m.buttons.length ≤ 15)
    (hreach : ∃ s, SubsetOf m.buttons.length s ∧
      xorFold m.buttons s = m.light_bit_pattern) :
    ∃ k, m.find_minimal_button_presses = some k ∧
      (∃ s, SubsetOf m.buttons.length s ∧ s.length = k ∧
        xorFold m.buttons s = m.light_bit_pattern) ∧
      ∀ s, SubsetOf m.buttons.length s →
        xorFold m.buttons s = m.light_bit_pattern → k ≤ s.length := by
  cases hfind : m.find_minimal_button_presses with
  | none => exact absurd hreach ((find_eq_none_iff hB).mp hfind)
  | some k =>
      obtain ⟨hex, hmin⟩ := find_eq_some_spec hB hfind
      exact ⟨k, rfl, hex, hmin⟩

/-- C1 witness: the amended theorem applied to the scenario-1 machine and
the reachable selection {1, 3}. -/
theorem C1_witness :
    ∃ k, machineScenario1.find_minimal_button_presses = some k ∧
      (∃ s, SubsetOf machineScenario1.buttons.length s ∧ s.length = k ∧
        xorFold machineScenario1.buttons s = machineScenario1.light_bit_pattern) ∧
      ∀ s, SubsetOf machineScenario1.buttons.length s →
        xorFold machineScenario1.buttons s = machineScenario1.light_bit_pattern →
          k ≤ s.length :=
  C1_find_minimal_presses_is_minimum machineScenario1 (by decide)
    ⟨[1, 3], ⟨by decide, by decide⟩, by decide⟩

/-- C2 counterexample: the claim fails as stated.  `machineWideLinear` has 17
counters and a feasible system in the spec's sense (press the single button 3
times), yet the Linear Minimizer returns `none`: the constraint for counter
16 is built from bit 16 % 16 = 0 and collides with counter 0's. -/
theorem C2_counterexample :
    SpecFeasible machineWideLinear [3] ∧
    machineWideLinear.find_minimal_button_presses_for_joltage_requirement =
      LinearResult.infeasible := by
  refine ⟨⟨by decide, by decide⟩, by decide⟩

/-- C2 (amended to machines with at least one button and at most 16
counters): whenever the spec's linear system has a feasible non-negative
assignment, the Linear Minimizer returns the minimum `k`, achieved by a
feasible assignment and undercut by none. -/
theorem C2_linear_minimizer_global_minimum (m : Machine)
    (hC : m.joltage_requirements.length ≤ 16) (hb : m.buttons ≠ [])
    (x : List Nat) (hx : SpecFeasible m x) :
    ∃ k, m.find_minimal_button_presses_for_joltage_requirement =
        LinearResult.minimum k ∧
      (∃ y, SpecFeasible m y ∧ y.sum = k) ∧
      ∀ y, SpecFeasible m y → k ≤ y.sum := by
  cases hlin : m.find_minimal_button_presses_for_joltage_requirement with
  | panic => exact absurd hlin (linMin_ne_panic hb)
  | infeasible =>
      exact absurd ⟨x, (specFeasible_iff_codeFeasible hC).mp hx⟩
        ((linMin_infeasible_iff m).mp hlin)
  | minimum k =>
      obtain ⟨⟨y, hy, hsum⟩, hmin⟩ := linMin_minimum_spec hlin
      exact ⟨k, rfl, ⟨y, (specFeasible_iff_codeFeasible hC).mpr hy, hsum⟩,
        fun z hz => hmin z ((specFeasible_iff_codeFeasible hC).mp hz)⟩

/-- C2 witness: the amended theorem applied to the two-counter machine and
the feasible assignment [2, 3]. -/
theorem C2_witness :
    ∃ k, machineLinearW.find_minimal_button_presses_for_joltage_requirement =
        LinearResult.minimum k ∧
      (∃ y, SpecFeasible machineLinearW y ∧ y.sum = k) ∧
      ∀ y, SpecFeasible machineLinearW y → k ≤ y.sum :=
  C2_linear_minimizer_global_minimum machineLinearW (by decide) (by decide)
    [2, 3] ⟨by decide, by decide⟩

/-- C3 counterexample: the claim fails as stated.  In `machineWideCounter`
counter 16 has requirement 5 and no button whose bit set contains bit 16,
yet the Linear Minimizer returns `some 5` instead of `none`, because the
constraint loop reads bit 16 % 16 = 0. -/
theorem C3_counterexample :
    16 < machineWideCounter.joltage_requirements.length ∧
    machineWideCounter.buttons = [1] ∧
    Nat.testBit 1 16 = false ∧
    machineWideCounter.joltage_requirements.getD 16 0 ≠ 0 ∧
    machineWideCounter.find_minimal_button_presses_for_joltage_requirement =
      LinearResult.minimum 5 := by
  refine ⟨by decide, by decide, by decide, by decide, by decide⟩

/-- C3 (amended to machines with at most 16 counters): a counter with no
incident button and a non-zero requirement makes the Linear Minimizer return
`none`, whatever the other counters require. -/
theorem C3_empty_incidence_infeasible (m : Machine)
    (hC : m.joltage_requirements.length ≤ 16) (c : Nat)
    (hc : c < m.joltage_requirements.length)
    (hempty : ∀ b ∈ m.buttons, b.testBit c = false)
    (hreq : m.joltage_requirements.getD c 0 ≠ 0) :
    m.find_minimal_button_presses_for_joltage_requirement =
      LinearResult.infeasible := by
  rw [linMin_infeasible_iff]
  rintro ⟨x, hx⟩
  have hinc : codeIncident m.buttons c = [] := by
    rw [← specIncident_eq_codeIncident (by omega), specIncident,
      List.filter_eq_nil_iff]
    intro i hi
    have hmem : m.buttons.getD i 0 ∈ m.buttons := by
      rw [List.getD_eq_getElem _ _ (List.mem_range.mp hi)]
      exact List.getElem_mem _
    rw [hempty _ hmem]
    exact Bool.false_ne_true
  have heq := hx.2 c hc
  rw [hinc] at heq
  simp only [List.map_nil, List.sum_nil] at heq
  exact hreq heq.symm

/-- C3 witness: the amended theorem applied to a machine whose counter 0 has
requirement 7 and no incident button. -/
theorem C3_witness :
    machineEmptyCounter.find_minimal_button_presses_for_joltage_requirement =
      LinearResult.infeasible :=
  C3_empty_incidence_infeasible machineEmptyCounter (by decide) 0 (by decide)
    (by decide) (by decide)

/-- C4 counterexample: the claim fails as stated.  For the 16-button machine
the Exact Toggle Search returns `none` although a subset of the buttons
XOR-folds to the light pattern, so `none` is not equivalent to
unreachability on every machine. -/
theorem C4_counterexample :
    machineSixteen.find_minimal_button_presses = none ∧
    SubsetOf machineSixteen.buttons.length [0] ∧
    xorFold machineSixteen.buttons [0] = machineSixteen.light_bit_pattern :=
  ⟨by decide, ⟨by decide, by decide⟩, by decide⟩

/-- C4 (amended to machines with at most 15 buttons and at most 16
counters): the Exact Toggle Search returns `none` exactly when no button
subset XOR-folds to the light pattern, the Linear Minimizer reports
infeasibility exactly when the linear system has no non-negative solution,
and, as long as there is at least one button, the Linear Minimizer never
panics. -/
theorem C4_none_exactly_on_unsolvable (m : Machine)
    (hB : m.buttons.length ≤ 15) (hC : m.joltage_requirements.length ≤ 16) :
    (m.find_minimal_button_presses = none ↔
      ¬ ∃ s, SubsetOf m.buttons.length s ∧
        xorFold m.buttons s = m.light_bit_pattern) ∧
    (m.find_minimal_button_presses_for_joltage_requirement =
        LinearResult.infeasible ↔
      ¬ ∃ x, SpecFeasible m x) ∧
    (m.buttons ≠ [] →
      m.find_minimal_button_presses_for_joltage_requirement ≠
        LinearResult.panic) := by
  refine ⟨find_eq_none_iff hB, ?_, fun hb => linMin_ne_panic hb⟩
  rw [linMin_infeasible_iff]
  constructor
  · rintro h ⟨x, hx⟩
    exact h ⟨x, (specFeasible_iff_codeFeasible hC).mp hx⟩
  · rintro h ⟨x, hx⟩
    exact h ⟨x, (specFeasible_iff_codeFeasible hC).mpr hx⟩

/-- C4 witness: the amended theorem applied to the scenario-1 machine. -/
theorem C4_witness :
    (machineScenario1.find_minimal_button_presses = none ↔
      ¬ ∃ s, SubsetOf machineScenario1.buttons.length s ∧
        xorFold machineScenario1.buttons s = machineScenario1.light_bit_pattern) ∧
    (machineScenario1.find_minimal_button_presses_for_joltage_requirement =
        LinearResult.infeasible ↔
      ¬ ∃ x, SpecFeasible machineScenario1 x) ∧
    (machineScenario1.buttons ≠ [] →
      machineScenario1.find_minimal_button_presses_for_joltage_requirement ≠
        LinearResult.panic) :=
  C4_none_exactly_on_unsolvable machineScenario1 (by decide) (by decide)

/-- C5 counterexample: the claim fails as stated at B = 16.  The computed
enumeration bound is 1 rather than 2^16 = 65536, and the full selection of
all 16 buttons is never examined. -/
theorem C5_counterexample :
    machineSixteen.buttons.length = 16 ∧
    machineSixteen.max_combinations = 1 ∧
    machineSixteen.max_combinations ≠ 2 ^ 16 ∧
    65535 ∉ List.range machineSixteen.max_combinations := by
  refine ⟨by decide, by decide, by decide, by decide⟩

/-- C5 (amended to machines with at most 15 buttons): the enumeration bound
is exactly 2^B and every selection pattern below 2^B, the full selection
included, lies in the enumerated range. -/
theorem C5_enumerates_all_subsets (m : Machine) (hB : m.buttons.length ≤ 15) :
    m.max_combinations = 2 ^ m.buttons.length ∧
    ∀ p < 2 ^ m.buttons.length, p ∈ List.range m.max_combinations := by
  refine ⟨max_combinations_eq hB, fun p hp => ?_⟩
  rw [List.mem_range, max_combinations_eq hB]
  exact hp

/-- C5 witness: the amended theorem applied to the six-button scenario-1
machine. -/
theorem C5_witness :
    machineScenario1.max_combinations = 2 ^ machineScenario1.buttons.length ∧
    ∀ p < 2 ^ machineScenario1.buttons.length,
      p ∈ List.range machineScenario1.max_combinations :=
  C5_enumerates_all_subsets machineScenario1 (by decide)

/-- C6 counterexample: on the scenario-1 machine the Exact Toggle Search
does not return the spec's expected 3. -/
theorem C6_counterexample :
    machineScenario1.find_minimal_button_presses ≠ some 3 := by decide

/-- C6 (amended): the minimal toggle weight of the scenario-1 machine is 2
(buttons {1,3} and {2,3} XOR to {1,2}). -/
theorem C6_scenario1_answer :
    machineScenario1.find_minimal_button_presses = some 2 := by decide

/-- C7 counterexample: a joltage target exceeding 32 bits (4294967296) is
not representable — the parser rejects it as a fatal error, because targets
are stored in 16 bits, not a width beyond 32 bits. -/
theorem C7_counterexample :
    parse_joltage_requirements "{4294967296}".data = none := by decide

/-- C7 (amended): joltage targets are 16-bit: every accepted target is below
2^16 and stored exactly (65535 parses to 65535), and a target of 2^16 or
more is a fatal parse error rather than a silently wrapped value. -/
theorem C7_sixteen_bit_targets :
    (∀ cs l, parse_joltage_requirements cs = some l → ∀ v ∈ l, v < 65536) ∧
    parse_joltage_requirements "{65535}".data = some [65535] ∧
    parse_joltage_requirements "{65536}".data = none := by
  exact ⟨fun cs l h => parse_joltage_requirements_lt h, by decide, by decide⟩

/-- C7 witness: the amended theorem's bound instantiated on an accepted
concrete requirement list. -/
theorem C7_witness : (7 : Nat) < 65536 :=
  C7_sixteen_bit_targets.1 "{7}".data [7] (by decide) 7 (by decide)

/-- C8: both solvers are deterministic functions of the machine: the toggle
search is a pure function, the embedded minimizer's outcome satisfies the
optimisation contract, and that contract is single-valued, so any two
invocations (including the external engine's) must return the same result. -/
theorem C8_deterministic :
    (∀ m : Machine, m.find_minimal_button_presses =
      m.find_minimal_button_presses) ∧
    (∀ m : Machine, m.find_minimal_button_presses_for_joltage_requirement =
      m.find_minimal_button_presses_for_joltage_requirement) ∧
    (∀ m : Machine, OptimizeOutcome m (z3Optimize m)) ∧
    ∀ (m : Machine) (r₁ r₂ : Option Nat),
      OptimizeOutcome m r₁ → OptimizeOutcome m r₂ → r₁ = r₂ := by
  refine ⟨fun m => rfl, fun m => rfl, fun m => ?_, fun m r₁ r₂ h₁ h₂ => ?_⟩
  · cases h : z3Optimize m with
    | none => exact (z3Optimize_none_iff m).mp h
    | some k => exact z3Optimize_some_spec h
  · match r₁, r₂ with
    | none, none => rfl
    | none, some k₂ =>
        obtain ⟨⟨x, hx, _⟩, _⟩ := h₂
        exact absurd ⟨x, hx⟩ h₁
    | some k₁, none =>
        obtain ⟨⟨x, hx, _⟩, _⟩ := h₁
        exact absurd ⟨x, hx⟩ h₂
    | some k₁, some k₂ =>
        obtain ⟨⟨x₁, hx₁, hs₁⟩, hmin₁⟩ := h₁
        obtain ⟨⟨x₂, hx₂, hs₂⟩, hmin₂⟩ := h₂
        have h12 := hmin₁ x₂ hx₂
        have h21 := hmin₂ x₁ hx₁
        rw [hs₁] at h21
        rw [hs₂] at h12
        rw [Nat.le_antisymm h12 h21]

/-- C8 witness: the uniqueness part applied at a machine with no buttons and
a non-zero requirement, whose only consistent outcome is `none`. -/
theorem C8_witness : (none : Option Nat) = none :=
  C8_deterministic.2.2.2 machineNoButtons none none
    (fun ⟨x, hx⟩ => by simpa [machineNoButtons, codeIncident] using hx.2 0 (by decide))
    (fun ⟨x, hx⟩ => by simpa [machineNoButtons, codeIncident] using hx.2 0 (by decide))

/-- C9: the claim is right and the code is wrong: parsing is meant to turn
every malformed line into a propagated error, but on an empty or
whitespace-only line `parts[0]` indexes an empty vector and panics. -/
theorem C9_empty_line_panics :
    Machine.from_str "" = ParseResult.panic ∧
    Machine.from_str "   " = ParseResult.panic := by
  exact ⟨by decide, by decide⟩

/-- C10: the sub-solvers read disjoint parts of the machine: the Exact
Toggle Search ignores the joltage requirements and the Linear Minimizer
ignores the light pattern. -/
theorem C10_no_cross_interference :
    (∀ m₁ m₂ : Machine, m₁.buttons = m₂.buttons →
      m₁.light_bit_pattern = m₂.light_bit_pattern →
      m₁.find_minimal_button_presses = m₂.find_minimal_button_presses) ∧
    ∀ m₁ m₂ : Machine, m₁.buttons = m₂.buttons →
      m₁.joltage_requirements = m₂.joltage_requirements →
      m₁.find_minimal_button_presses_for_joltage_requirement =
        m₂.find_minimal_button_presses_for_joltage_requirement := by
  constructor
  · rintro ⟨l₁, b₁, j₁⟩ ⟨l₂, b₂, j₂⟩ hb hl
    simp only at hb hl
    subst hb
    subst hl
    rfl
  · rintro ⟨l₁, b₁, j₁⟩ ⟨l₂, b₂, j₂⟩ hb hj
    simp only at hb hj
    subst hb
    subst hj
    rfl

/-- C10 witness: the scenario-1 machine with altered requirements gives the
same toggle answer, and the two-counter machine with an altered light
pattern gives the same linear answer. -/
theorem C10_witness :
    machineScenario1.find_minimal_button_presses =
      machineScenario1Alt.find_minimal_button_presses ∧
    machineLinearW.find_minimal_button_presses_for_joltage_requirement =
      machineLitLinearW.find_minimal_button_presses_for_joltage_requirement :=
  ⟨C10_no_cross_interference.1 machineScenario1 machineScenario1Alt rfl rfl,
   C10_no_cross_interference.2 machineLinearW machineLitLinearW rfl rfl⟩
